import Mathlib

/-!
Shallow embedding of `src/musicbot/bot.py` (class `VersionableTree` of the
discord-musicbot repository): the digest-based conditional sync, the scoped
mention resolver with its lazily populated cache, and the error dispatch
boundary.  External collaborators (the remote registry reached through
`super().sync` / `super().fetch_commands`, the `xxhash.xxh3_64_digest`
function, the `json.dumps` serializer and the optional translator) are
modelled as oracle parameters; everything else is translated directly from
the source.
-/

set_option maxHeartbeats 1000000

namespace MusicBotModel

/-- A remote command record (`discord.app_commands.AppCommand`): the
remote-assigned identifier and the command name, as returned by the
registry.  Never constructed locally by the resolver. -/
structure AppCommand where
  id : Nat
  name : String
deriving DecidableEq, Repr

/-- A declared command handle (`app_commands.Command` or `app_commands.Group`):
its own name, its qualified name, the name of its root parent when it is a
subcommand (`command.root_parent.name`, `none` for a top-level command), and
the rest of the serializable content (description text) used by `to_dict`. -/
structure CmdHandle where
  name : String
  qualifiedName : String
  rootParentName : Option String
  description : String
deriving DecidableEq, Repr

/-- A scope is the global sentinel (`none`, Python `None`) or a guild id. -/
abbrev Scope := Option Nat

/-- The scope-keyed cache `self.application_commands`, a
`dict[int | None, list[AppCommand]]`, modelled as an association list. -/
abbrev Cache := List (Scope × List AppCommand)

/-- Dictionary lookup `cache[k]`, returning `none` where Python raises
`KeyError`. -/
def cacheFind? (cache : Cache) (k : Scope) : Option (List AppCommand) :=
  (cache.find? (fun e => e.1 == k)).map (·.2)

/-- Dictionary assignment `cache[k] = v`: the binding for `k` is replaced
wholesale. -/
def cacheInsert (cache : Cache) (k : Scope) (v : List AppCommand) : Cache :=
  (k, v) :: cache.filter (fun e => e.1 != k)

/-- Events observable at the external boundary: a push of the declared set to
the remote registry (`super().sync`), a fetch of the live records
(`super().fetch_commands`), and a write of the persisted digest file. -/
inductive Ev where
  | push (scope : Scope)
  | fetch (scope : Scope)
  | write (bytes : List Nat)
deriving DecidableEq, Repr

/-- The mutable state the embedded operations act on: the scope-keyed cache of
remote records and the bytes stored in the digest-persistence file
(`musicbot_tree.hash`). -/
structure BotState where
  application_commands : Cache
  fileBytes : List Nat
deriving DecidableEq, Repr

/-- The immutable configuration of the tree: the `fallback_to_global` flag and
the declared commands of each scope (what `walk_commands(guild=...)` walks). -/
structure TreeConfig where
  fallback_to_global : Bool
  declared : List (Scope × List CmdHandle)
deriving DecidableEq, Repr

/-- `self.walk_commands(guild=g)` (and `self._get_all_commands(guild=None)`
for the global scope): the declared commands of one scope. -/
def walk_commands (cfg : TreeConfig) (guild : Scope) : List CmdHandle :=
  ((cfg.declared.find? (fun e => e.1 == guild)).map (·.2)).getD []

/-- `VersionableTree.fetch_commands` (lines 55-58): call the remote registry
(the oracle `fetchRemote` stands for `super().fetch_commands`) and overwrite
the cache entry of the scope with the returned records. -/
def fetch_commands (fetchRemote : Scope → List AppCommand) (st : BotState)
    (guild : Scope) : List AppCommand × BotState × List Ev :=
  let ret := fetchRemote guild
  (ret,
    { st with application_commands := cacheInsert st.application_commands guild ret },
    [Ev.fetch guild])

/-- `VersionableTree.sync` (lines 50-53): push the declared set to the remote
registry (the oracle `pushRemote` stands for `super().sync` and may fail) and
on success overwrite the cache entry of the scope with the returned records;
a failure propagates as an exception and leaves the state unchanged. -/
def sync (pushRemote : Scope → Except Unit (List AppCommand)) (st : BotState)
    (guild : Scope) : Except Unit (List AppCommand × BotState) × List Ev :=
  match pushRemote guild with
  | .error e => (.error e, [Ev.push guild])
  | .ok ret =>
      (.ok (ret,
        { st with application_commands := cacheInsert st.application_commands guild ret }),
        [Ev.push guild])

/-- The resolver input: a qualified-name string or a command handle
(`command: app_commands.Command | app_commands.Group | str`). -/
inductive CmdRef where
  | byName (s : String)
  | byCommand (c : CmdHandle)
deriving DecidableEq, Repr

/-- The name used to search the cached records,
`(_command.root_parent or _command).name`: the root parent name for a
subcommand, the command own name otherwise. -/
def lookupName (c : CmdHandle) : String :=
  c.rootParentName.getD c.name

/-- The declared-command resolution step of `find_mention_for` (lines 80-89):
a handle is used as is; a name is searched in the requested scope by
qualified name, then, under `check_global`, in the global scope. -/
def resolveDeclared (cfg : TreeConfig) (command : CmdRef) (guild : Scope)
    (check_global : Bool) : Option CmdHandle :=
  match command with
  | .byName s =>
      let c₁ := (walk_commands cfg guild).find? (fun c => c.qualifiedName == s)
      if check_global && c₁.isNone then
        (walk_commands cfg none).find? (fun c => c.qualifiedName == s)
      else c₁
  | .byCommand c => some c

/-- One cache lookup step of `find_mention_for` (lines 94-100 and 105-111):
use the cached entry of the scope when present, otherwise fetch it through
`fetch_commands` (populating the cache); then search the records by name. -/
def cacheSearch (fetchRemote : Scope → List AppCommand) (st : BotState)
    (scope : Scope) (target : String) : Option AppCommand × BotState × List Ev :=
  match cacheFind? st.application_commands scope with
  | some cmds => (cmds.find? (fun a => a.name == target), st, [])
  | none =>
      let r := fetch_commands fetchRemote st scope
      (r.1.find? (fun a => a.name == target), r.2.1, r.2.2)

/-- The mention string built on line 116 from the resolved command qualified
name and the remote-assigned identifier of the found record. -/
def mentionString (c : CmdHandle) (a : AppCommand) : String :=
  "</" ++ c.qualifiedName ++ ":" ++ toString a.id ++ ">"

/-- `VersionableTree.find_mention_for` (lines 60-116): resolve a command
reference to a mention string, searching the scoped cache (lazily fetched)
and, when `fallback_to_global` is set or a guild was passed, the global
cache.  Returns the optional mention, the updated state and the trace of
external events. -/
def find_mention_for (cfg : TreeConfig) (fetchRemote : Scope → List AppCommand)
    (st : BotState) (command : CmdRef) (guild : Scope) :
    Option String × BotState × List Ev :=
  let check_global := cfg.fallback_to_global || guild.isSome
  match resolveDeclared cfg command guild check_global with
  | none => (none, st, [])
  | some c =>
    let target := lookupName c
    let step₁ : Option AppCommand × BotState × List Ev :=
      match guild with
      | some g => cacheSearch fetchRemote st (some g) target
      | none => (none, st, [])
    let step₂ : Option AppCommand × BotState × List Ev :=
      if check_global && step₁.1.isNone then
        cacheSearch fetchRemote step₁.2.1 none target
      else (step₁.1, step₁.2.1, [])
    match step₂.1 with
    | none => (none, step₂.2.1, step₁.2.2 ++ step₂.2.2)
    | some a => (some (mentionString c a), step₂.2.1, step₁.2.2 ++ step₂.2.2)

/-- Payload of one command as it enters the digest: the command qualified name
together with the rest of its serialized (possibly translated) content.
Modelled from the spec: `Command.get_translated_payload` and
`Command.to_dict` are methods of the external discord.py collaborator; the
spec requires the canonical representation to reflect the command name and
its (translated) text. -/
structure Payload where
  name : String
  text : String
deriving DecidableEq, Repr

/-- Modelled from the spec: `command.get_translated_payload(self, translator)`,
the canonical representation with the translator outputs applied. -/
def get_translated_payload (translator : CmdHandle → String) (c : CmdHandle) :
    Payload :=
  ⟨c.qualifiedName, translator c⟩

/-- Modelled from the spec: `command.to_dict(self)`, the direct canonical
serialization used when no translation service is configured. -/
def to_dict (c : CmdHandle) : Payload :=
  ⟨c.qualifiedName, c.description⟩

/-- The translated text a command contributes to its payload: the translator
output when a translator is configured, the direct serialized content
otherwise. -/
def textOf (translator : Option (CmdHandle → String)) (c : CmdHandle) : String :=
  match translator with
  | some t => t c
  | none => c.description

/-- The payload one command contributes to the digest, as a function of the
configured translator (both branches of `get_hash` produce this). -/
def payloadOf (translator : Option (CmdHandle → String)) (c : CmdHandle) :
    Payload :=
  ⟨c.qualifiedName, textOf translator c⟩

/-- The comparator `get_hash` sorts with: qualified-name order
(`key=lambda c: c.qualified_name`). -/
def qnLE (a b : CmdHandle) : Bool :=
  decide (a.qualifiedName ≤ b.qualifiedName)

/-- `VersionableTree.get_hash` (lines 118-129): sort the globally declared
commands by qualified name, build each command payload (translated when a
translator is set), serialize the ordered list (`json.dumps`, external,
modelled by the oracle `dumps`) and hash the serialization with seed 1
(`xxhash.xxh3_64_digest`, external, modelled by the oracle `hashFn`). -/
def get_hash (hashFn : String → Nat → List Nat) (dumps : List Payload → String)
    (translator : Option (CmdHandle → String)) (cfg : TreeConfig) : List Nat :=
  let tree_commands :=
    (walk_commands cfg none).mergeSort
      (fun a b => decide (a.qualifiedName ≤ b.qualifiedName))
  let payload :=
    match translator with
    | some t => tree_commands.map (get_translated_payload t)
    | none => tree_commands.map to_dict
  hashFn (dumps payload) 1

/-- Result of `sync_if_commands_updated`: the final state, the trace of
external events, and whether the push raised (the exception propagates to
the caller). -/
structure SyncResult where
  state : BotState
  trace : List Ev
  raised : Bool
deriving DecidableEq, Repr

/-- Effect of `fp.seek(0); fp.write(new)` on a file opened in `r+b` mode: the
new bytes overwrite the head of the old content in place, without
truncation. -/
def writeAt0 (old new : List Nat) : List Nat :=
  new ++ old.drop new.length

/-- `VersionableTree.sync_if_commands_updated` (lines 131-151): compare the
persisted digest with the freshly computed one; when they are equal do
nothing, otherwise perform a global push and, only after it returned
successfully, write the fresh digest over the file. -/
def sync_if_commands_updated (hashFn : String → Nat → List Nat)
    (dumps : List Payload → String) (translator : Option (CmdHandle → String))
    (cfg : TreeConfig) (pushRemote : Scope → Except Unit (List AppCommand))
    (st : BotState) : SyncResult :=
  let tree_hash := get_hash hashFn dumps translator cfg
  let data := st.fileBytes
  if data = tree_hash then
    { state := st, trace := [], raised := false }
  else
    match sync pushRemote st none with
    | (.error _, evs) => { state := st, trace := evs, raised := true }
    | (.ok (_, st'), evs) =>
        { state := { st' with fileBytes := writeAt0 st'.fileBytes tree_hash },
          trace := evs ++ [Ev.write tree_hash], raised := false }

/-- A command-execution error delivered to `on_error`: the domain-specific
`MusicBotError` carrying a user-facing message, or any other
`AppCommandError`. -/
inductive CmdError where
  | musicBot (message : String)
  | generic (info : String)
deriving DecidableEq, Repr

/-- The action `on_error` takes: send a message as the initial interaction
response (`itx.response.send_message`), send it as a follow-up
(`itx.followup.send`), or delegate to the generic fallback handler
(`super().on_error`). -/
inductive ErrorAction where
  | sendResponse (msg : String)
  | sendFollowup (msg : String)
  | fallback
deriving DecidableEq, Repr

/-- `VersionableTree.on_error` (lines 41-48): the message of a
`MusicBotError` is sent to the user, as the initial response when none was
sent yet and as a follow-up otherwise; every other error goes to
`super().on_error`.  `responseDone` models `itx.response.is_done()`. -/
def on_error (responseDone : Bool) (e : CmdError) : ErrorAction :=
  match e with
  | .musicBot m => if responseDone then .sendFollowup m else .sendResponse m
  | .generic _ => .fallback

/-- The message an error action delivers to the user, if any. -/
def sentToUser : ErrorAction → Option String
  | .sendResponse m => some m
  | .sendFollowup m => some m
  | .fallback => none

/-- A transition from `st` to `st'` with event trace `tr` that only populates
cold cache entries by fetching: the digest file is untouched, every event is
a fetch, warm entries are preserved, and an entry that changed was cold
before, now holds exactly the fetched records, and its fetch is in the
trace. -/
def FetchOnlyStep (f : Scope → List AppCommand) (st st' : BotState)
    (tr : List Ev) : Prop :=
  st'.fileBytes = st.fileBytes ∧
  (∀ e ∈ tr, ∃ k, e = Ev.fetch k) ∧
  (∀ k v, cacheFind? st.application_commands k = some v →
    cacheFind? st'.application_commands k = some v) ∧
  (∀ k, cacheFind? st'.application_commands k ≠ cacheFind? st.application_commands k →
    cacheFind? st.application_commands k = none ∧
    cacheFind? st'.application_commands k = some (f k) ∧
    Ev.fetch k ∈ tr)

/-- An injective coding of a string into a natural number, used to build
concrete injective instances of the external serializer and hash oracles. -/
def natOfString (s : String) : Nat :=
  Encodable.encode (s.data.map Char.toNat)

/-- An injective coding of a payload into a natural number. -/
def natOfPayload (p : Payload) : Nat :=
  Encodable.encode (natOfString p.name, natOfString p.text)

/-- A concrete injective serializer standing in for `json.dumps`. -/
def dumpsW (l : List Payload) : String :=
  String.mk (List.replicate (Encodable.encode (l.map natOfPayload)) 'a')

/-- A concrete hash oracle, injective in the hashed string for every seed. -/
def hashFnW (s : String) (seed : Nat) : List Nat :=
  seed :: s.data.map Char.toNat

/-! Helper lemmas about the cache dictionary. -/

theorem cacheFind?_insert_self (cache : Cache) (k : Scope) (v : List AppCommand) :
    cacheFind? (cacheInsert cache k v) k = some v := by
  simp [cacheFind?, cacheInsert]

theorem find?_pred_congr {α : Type} (l : List α) (p q : α → Bool)
    (h : ∀ a, p a = q a) : l.find? p = l.find? q := by
  induction l with
  | nil => rfl
  | cons e l ih => simp only [List.find?_cons, h e, ih]

theorem find?_key_and_bne (l : Cache) (k k' : Scope) (h : k' ≠ k) :
    l.find? (fun e => e.1 == k' && e.1 != k) = l.find? (fun e => e.1 == k') := by
  induction l with
  | nil => rfl
  | cons e l ih =>
    by_cases he : e.1 = k'
    · have h1 : (e.1 == k') = true := by simp [he]
      have h2 : (e.1 != k) = true := by
        simp only [bne_iff_ne, ne_eq, he]
        exact h
      simp [List.find?_cons, h1, h2]
    · have h1 : (e.1 == k') = false := by simp [he]
      simp [List.find?_cons, h1, ih]

theorem cacheFind?_insert_ne (cache : Cache) (k k' : Scope) (v : List AppCommand)
    (h : k' ≠ k) : cacheFind? (cacheInsert cache k v) k' = cacheFind? cache k' := by
  have hk : (k == k') = false := by
    simp only [beq_eq_false_iff_ne, ne_eq]
    exact fun he => h he.symm
  simp only [cacheFind?, cacheInsert, List.find?_cons, hk, List.find?_filter]
  rw [find?_pred_congr cache _ (fun a => a.1 == k' && a.1 != k)
      (by
        intro a
        by_cases h1 : (a.1 == k') = true <;> by_cases h2 : (a.1 != k) = true <;>
          simp [h1, h2]),
    find?_key_and_bne cache k k' h]

/-! Helper lemmas about one cache lookup step of the resolver. -/

theorem cacheSearch_warm (f : Scope → List AppCommand) (st : BotState)
    (scope : Scope) (target : String) (cmds : List AppCommand)
    (h : cacheFind? st.application_commands scope = some cmds) :
    cacheSearch f st scope target =
      (cmds.find? (fun a => a.name == target), st, []) := by
  simp [cacheSearch, h]

theorem cacheSearch_cold (f : Scope → List AppCommand) (st : BotState)
    (scope : Scope) (target : String)
    (h : cacheFind? st.application_commands scope = none) :
    cacheSearch f st scope target =
      ((f scope).find? (fun a => a.name == target),
       { st with application_commands :=
          cacheInsert st.application_commands scope (f scope) },
       [Ev.fetch scope]) := by
  simp [cacheSearch, h, fetch_commands]

theorem fetchOnly_refl (f : Scope → List AppCommand) (st : BotState) :
    FetchOnlyStep f st st [] :=
  ⟨rfl, fun _ he => absurd he (List.not_mem_nil _),
   fun _ _ h => h, fun _ h => absurd rfl h⟩

theorem fetchOnly_cacheSearch (f : Scope → List AppCommand) (st : BotState)
    (scope : Scope) (target : String) :
    FetchOnlyStep f st (cacheSearch f st scope target).2.1
      (cacheSearch f st scope target).2.2 := by
  cases hc : cacheFind? st.application_commands scope with
  | some cmds =>
    rw [cacheSearch_warm f st scope target cmds hc]
    exact fetchOnly_refl f st
  | none =>
    rw [cacheSearch_cold f st scope target hc]
    refine ⟨rfl, ?_, ?_, ?_⟩
    · intro e he
      rcases List.mem_singleton.mp he with rfl
      exact ⟨scope, rfl⟩
    · intro k v hk
      by_cases hks : k = scope
      · subst hks
        rw [hk] at hc
        exact absurd hc (by simp)
      · rw [cacheFind?_insert_ne _ _ _ _ hks]
        exact hk
    · intro k hk
      by_cases hks : k = scope
      · subst hks
        exact ⟨hc, cacheFind?_insert_self _ _ _, List.mem_singleton.mpr rfl⟩
      · rw [cacheFind?_insert_ne _ _ _ _ hks] at hk
        exact absurd rfl hk

theorem fetchOnly_trans (f : Scope → List AppCommand) (st st₁ st₂ : BotState)
    (tr₁ tr₂ : List Ev) (h₁ : FetchOnlyStep f st st₁ tr₁)
    (h₂ : FetchOnlyStep f st₁ st₂ tr₂) :
    FetchOnlyStep f st st₂ (tr₁ ++ tr₂) := by
  obtain ⟨hf₁, he₁, hw₁, hc₁⟩ := h₁
  obtain ⟨hf₂, he₂, hw₂, hc₂⟩ := h₂
  refine ⟨hf₂.trans hf₁, ?_, fun k v hk => hw₂ k v (hw₁ k v hk), ?_⟩
  · intro e he
    rcases List.mem_append.mp he with h | h
    · exact he₁ e h
    · exact he₂ e h
  · intro k hk
    by_cases hmid : cacheFind? st₁.application_commands k =
        cacheFind? st.application_commands k
    · rw [← hmid] at hk
      obtain ⟨ha, hb, hcm⟩ := hc₂ k hk
      rw [hmid] at ha
      exact ⟨ha, hb, List.mem_append.mpr (Or.inr hcm)⟩
    · obtain ⟨ha, hb, hcm⟩ := hc₁ k hmid
      have : cacheFind? st₂.application_commands k = some (f k) := hw₂ k (f k) hb
      exact ⟨ha, this, List.mem_append.mpr (Or.inl hcm)⟩

/-- Unfolding equation for `find_mention_for`, exposing the two cache steps. -/
theorem find_mention_for_eq (cfg : TreeConfig) (f : Scope → List AppCommand)
    (st : BotState) (command : CmdRef) (guild : Scope) :
    find_mention_for cfg f st command guild =
      match resolveDeclared cfg command guild (cfg.fallback_to_global || guild.isSome) with
      | none => (none, st, [])
      | some c =>
        let target := lookupName c
        let step₁ : Option AppCommand × BotState × List Ev :=
          match guild with
          | some g => cacheSearch f st (some g) target
          | none => (none, st, [])
        let step₂ : Option AppCommand × BotState × List Ev :=
          if (cfg.fallback_to_global || guild.isSome) && step₁.1.isNone then
            cacheSearch f step₁.2.1 none target
          else (step₁.1, step₁.2.1, [])
        match step₂.1 with
        | none => (none, step₂.2.1, step₁.2.2 ++ step₂.2.2)
        | some a => (some (mentionString c a), step₂.2.1, step₁.2.2 ++ step₂.2.2) :=
  rfl

/-- The resolver only performs fetch-populating transitions, whatever the
input: proved by case analysis over the declared resolution, the guild and
the two cache steps. -/
theorem findMention_fetchOnly (cfg : TreeConfig) (f : Scope → List AppCommand)
    (st : BotState) (command : CmdRef) (guild : Scope) :
    FetchOnlyStep f st (find_mention_for cfg f st command guild).2.1
      (find_mention_for cfg f st command guild).2.2 := by
  rw [find_mention_for_eq]
  cases hres : resolveDeclared cfg command guild (cfg.fallback_to_global || guild.isSome) with
  | none => exact fetchOnly_refl f st
  | some c =>
    dsimp only
    cases guild with
    | none =>
      cases hfb : cfg.fallback_to_global with
      | false => simpa [hfb] using fetchOnly_refl f st
      | true =>
        have h := fetchOnly_cacheSearch f st none (lookupName c)
        cases hs2 : (cacheSearch f st none (lookupName c)).1 with
        | none => simpa [hfb, hs2] using h
        | some a => simpa [hfb, hs2] using h
    | some g =>
      have h₁ := fetchOnly_cacheSearch f st (some g) (lookupName c)
      cases hs1 : (cacheSearch f st (some g) (lookupName c)).1 with
      | some a => simpa [hs1] using h₁
      | none =>
        have h₂ := fetchOnly_cacheSearch f
          (cacheSearch f st (some g) (lookupName c)).2.1 none (lookupName c)
        have ht := fetchOnly_trans f st _ _ _ _ h₁ h₂
        cases hs2 : (cacheSearch f
            (cacheSearch f st (some g) (lookupName c)).2.1 none (lookupName c)).1 with
        | none => simpa [hs1, hs2] using ht
        | some a => simpa [hs1, hs2] using ht

/-- C1: for every state of the digest-persistence file, if the stored bytes
equal the freshly computed digest of the declared command set then
`sync_if_commands_updated` performs zero remote calls (its event trace is
empty, so in particular no push) and leaves the persisted digest bytes
unchanged (the whole state is returned untouched). -/
theorem syncIfUpdated_skips_when_digest_matches
    (hashFn : String → Nat → List Nat) (dumps : List Payload → String)
    (translator : Option (CmdHandle → String)) (cfg : TreeConfig)
    (pushRemote : Scope → Except Unit (List AppCommand)) (st : BotState)
    (h : st.fileBytes = get_hash hashFn dumps translator cfg) :
    (sync_if_commands_updated hashFn dumps translator cfg pushRemote st).trace = [] ∧
    (sync_if_commands_updated hashFn dumps translator cfg pushRemote st).state = st := by
  simp [sync_if_commands_updated, h]

/-- Witness for C1 at a concrete configuration whose stored digest matches. -/
theorem syncIfUpdated_skips_when_digest_matches_witness :
    (sync_if_commands_updated (fun _ _ => [1, 2]) (fun _ => "") none ⟨true, []⟩
        (fun _ => .ok []) ⟨[], [1, 2]⟩).trace = [] ∧
    (sync_if_commands_updated (fun _ _ => [1, 2]) (fun _ => "") none ⟨true, []⟩
        (fun _ => .ok []) ⟨[], [1, 2]⟩).state = ⟨[], [1, 2]⟩ :=
  syncIfUpdated_skips_when_digest_matches (fun _ _ => [1, 2]) (fun _ => "") none
    ⟨true, []⟩ (fun _ => .ok []) ⟨[], [1, 2]⟩ rfl

/-- C2: when the stored digest differs from the freshly computed one,
`sync_if_commands_updated` performs exactly one global push and exactly one
persistence write, in that order (the trace is push then write), and the
write carries the new digest; when the push raises, the state — in
particular the persisted digest bytes — is left unchanged, there is no
write, and the stored bytes still differ from the fresh digest, so a later
run retries the push. -/
theorem syncIfUpdated_pushes_then_writes
    (hashFn : String → Nat → List Nat) (dumps : List Payload → String)
    (translator : Option (CmdHandle → String)) (cfg : TreeConfig)
    (pushRemote : Scope → Except Unit (List AppCommand)) (st : BotState)
    (h : st.fileBytes ≠ get_hash hashFn dumps translator cfg) :
    (∀ ret, pushRemote none = .ok ret →
      (sync_if_commands_updated hashFn dumps translator cfg pushRemote st).trace =
        [Ev.push none, Ev.write (get_hash hashFn dumps translator cfg)] ∧
      (sync_if_commands_updated hashFn dumps translator cfg pushRemote st).state.fileBytes =
        writeAt0 st.fileBytes (get_hash hashFn dumps translator cfg) ∧
      (sync_if_commands_updated hashFn dumps translator cfg pushRemote st).raised = false ∧
      (st.fileBytes.length ≤ (get_hash hashFn dumps translator cfg).length →
        (sync_if_commands_updated hashFn dumps translator cfg pushRemote st).state.fileBytes =
          get_hash hashFn dumps translator cfg)) ∧
    (∀ e, pushRemote none = .error e →
      (sync_if_commands_updated hashFn dumps translator cfg pushRemote st).state = st ∧
      (sync_if_commands_updated hashFn dumps translator cfg pushRemote st).raised = true ∧
      (sync_if_commands_updated hashFn dumps translator cfg pushRemote st).trace =
        [Ev.push none] ∧
      (sync_if_commands_updated hashFn dumps translator cfg pushRemote st).state.fileBytes ≠
        get_hash hashFn dumps translator cfg) := by
  constructor
  · intro ret hret
    simp only [sync_if_commands_updated, sync, hret, if_neg h]
    refine ⟨by trivial, by trivial, by trivial, fun hlen => ?_⟩
    simp [writeAt0, List.drop_eq_nil_of_le hlen]
  · intro e herr
    simp only [sync_if_commands_updated, sync, herr, if_neg h]
    exact ⟨by trivial, by trivial, by trivial, h⟩

/-- Witness for C2 at a concrete configuration whose stored digest differs. -/
theorem syncIfUpdated_pushes_then_writes_witness :
    (sync_if_commands_updated (fun _ _ => [1, 2]) (fun _ => "") none ⟨true, []⟩
        (fun _ => .ok [⟨5, "play"⟩]) ⟨[], []⟩).trace =
      [Ev.push none, Ev.write [1, 2]] :=
  ((syncIfUpdated_pushes_then_writes (fun _ _ => [1, 2]) (fun _ => "") none
      ⟨true, []⟩ (fun _ => .ok [⟨5, "play"⟩]) ⟨[], []⟩ (by decide)).1
    [⟨5, "play"⟩] rfl).1

/-- C9: the error dispatch boundary: the message of a domain-specific
`MusicBotError` is sent to the user — as the initial response when none was
sent yet, as a follow-up otherwise — while every other error is passed to
the generic fallback handler rather than swallowed. -/
theorem onError_dispatch (responseDone : Bool) (m info : String) :
    sentToUser (on_error responseDone (.musicBot m)) = some m ∧
    on_error responseDone (.musicBot m) =
      (if responseDone then .sendFollowup m else .sendResponse m) ∧
    on_error responseDone (.generic info) = .fallback := by
  refine ⟨?_, rfl, rfl⟩
  cases responseDone <;> rfl

/-- C10: with no scope given and `fallback_to_global` disabled,
`find_mention_for` returns `none` unconditionally — for every reference and
every cache state, even when the command is declared globally and the
global cache holds a matching record — performing no remote call and
leaving the state unchanged. -/
theorem findMention_noScope_noFallback_absent
    (cfg : TreeConfig) (fetchRemote : Scope → List AppCommand) (st : BotState)
    (command : CmdRef) (h : cfg.fallback_to_global = false) :
    find_mention_for cfg fetchRemote st command none = (none, st, []) := by
  unfold find_mention_for
  simp only [h, Option.isSome_none, Bool.or_false]
  cases resolveDeclared cfg command none false with
  | none => rfl
  | some c => rfl

/-- Witness for C10: a command declared globally, with a matching record in
the warm global cache, still resolves to `none` when no scope is given and
fallback is disabled. -/
theorem findMention_noScope_noFallback_absent_witness :
    find_mention_for ⟨false, [(none, [⟨"skip", "skip", none, "d"⟩])]⟩ (fun _ => [])
      ⟨[(none, [⟨9, "skip"⟩])], []⟩ (.byName "skip") none =
      (none, ⟨[(none, [⟨9, "skip"⟩])], []⟩, []) :=
  findMention_noScope_noFallback_absent _ _ _ _ rfl

/-- C7: a completed fetch or push for a scope replaces that scope's cache
entry wholesale with exactly the list of records the remote returned (for a
fetch, the fetch oracle's answer; for a push, the list carried by the
successful push result), and leaves the cache entries of every other scope,
and the persisted digest bytes, unchanged. -/
theorem cache_replaced_wholesale
    (fetchRemote : Scope → List AppCommand)
    (pushRemote : Scope → Except Unit (List AppCommand))
    (st : BotState) (g : Scope) :
    (∀ r st' evs, fetch_commands fetchRemote st g = (r, st', evs) →
      r = fetchRemote g ∧
      cacheFind? st'.application_commands g = some r ∧
      (∀ k, k ≠ g → cacheFind? st'.application_commands k =
        cacheFind? st.application_commands k) ∧
      st'.fileBytes = st.fileBytes) ∧
    (∀ r st' evs, sync pushRemote st g = (.ok (r, st'), evs) →
      pushRemote g = .ok r ∧
      cacheFind? st'.application_commands g = some r ∧
      (∀ k, k ≠ g → cacheFind? st'.application_commands k =
        cacheFind? st.application_commands k) ∧
      st'.fileBytes = st.fileBytes) := by
  constructor
  · intro r st' evs hf
    simp only [fetch_commands, Prod.mk.injEq] at hf
    obtain ⟨h1, h2, -⟩ := hf
    subst h1
    subst h2
    exact ⟨rfl, cacheFind?_insert_self _ _ _,
      fun k hk => cacheFind?_insert_ne _ _ _ _ hk, rfl⟩
  · intro r st' evs hs
    cases hp : pushRemote g with
    | error e => simp [sync, hp] at hs
    | ok ret =>
      simp only [sync, hp, Prod.mk.injEq, Except.ok.injEq] at hs
      obtain ⟨⟨h1, h2⟩, -⟩ := hs
      subst h1
      subst h2
      exact ⟨rfl, cacheFind?_insert_self _ _ _,
        fun k hk => cacheFind?_insert_ne _ _ _ _ hk, rfl⟩

/-- Witness for C7: a fetch for guild 3 on an empty cache stores exactly the
fetched records under guild 3 and leaves the global entry absent. -/
theorem cache_replaced_wholesale_witness :
    cacheFind? (fetch_commands (fun _ => [⟨1, "a"⟩]) ⟨[], []⟩
        (some 3)).2.1.application_commands (some 3) = some [⟨1, "a"⟩] ∧
    cacheFind? (fetch_commands (fun _ => [⟨1, "a"⟩]) ⟨[], []⟩
        (some 3)).2.1.application_commands none = none := by
  have h := (cache_replaced_wholesale (fun _ => [⟨1, "a"⟩]) (fun _ => .ok [])
      ⟨[], []⟩ (some 3)).1 [⟨1, "a"⟩]
      (fetch_commands (fun _ => [⟨1, "a"⟩]) ⟨[], []⟩ (some 3)).2.1
      (fetch_commands (fun _ => [⟨1, "a"⟩]) ⟨[], []⟩ (some 3)).2.2 rfl
  refine ⟨h.2.1, ?_⟩
  rw [h.2.2.1 none (by decide)]
  rfl

/-- C8: the resolver never pushes: for every input (name or handle, with or
without a scope) `find_mention_for` emits no push and no write event — so it
neither writes the remote registry nor the persisted digest, whose bytes are
returned unchanged — and its only state effect is cache population: warm
entries are preserved, and an entry that changed was cold before the call,
now holds exactly the records the fetch oracle returns for that scope, and
the corresponding fetch event is in the trace. -/
theorem findMention_never_pushes (cfg : TreeConfig)
    (f : Scope → List AppCommand) (st : BotState) (command : CmdRef)
    (guild : Scope) :
    (∀ e ∈ (find_mention_for cfg f st command guild).2.2,
       (∀ s, e ≠ Ev.push s) ∧ (∀ b, e ≠ Ev.write b)) ∧
    (find_mention_for cfg f st command guild).2.1.fileBytes = st.fileBytes ∧
    (∀ k v, cacheFind? st.application_commands k = some v →
       cacheFind? (find_mention_for cfg f st command guild).2.1.application_commands k =
         some v) ∧
    (∀ k, cacheFind? (find_mention_for cfg f st command guild).2.1.application_commands k ≠
          cacheFind? st.application_commands k →
       cacheFind? st.application_commands k = none ∧
       cacheFind? (find_mention_for cfg f st command guild).2.1.application_commands k =
         some (f k) ∧
       Ev.fetch k ∈ (find_mention_for cfg f st command guild).2.2) := by
  obtain ⟨hf, he, hw, hc⟩ := findMention_fetchOnly cfg f st command guild
  refine ⟨?_, hf, hw, hc⟩
  intro e hme
  obtain ⟨k, rfl⟩ := he e hme
  exact ⟨fun s h => Ev.noConfusion h, fun b h => Ev.noConfusion h⟩

/-- Witness for C8: a concrete resolver call that fetches a cold guild entry
still leaves the digest file untouched, and its one changed cache entry
holds exactly the fetched records. -/
theorem findMention_never_pushes_witness :
    (find_mention_for ⟨true, [(some 4, [⟨"play", "play", none, "d"⟩])]⟩
        (fun _ => [⟨3, "play"⟩]) ⟨[], [7]⟩ (.byName "play")
        (some 4)).2.1.fileBytes = [7] ∧
    cacheFind? (find_mention_for ⟨true, [(some 4, [⟨"play", "play", none, "d"⟩])]⟩
        (fun _ => [⟨3, "play"⟩]) ⟨[], [7]⟩ (.byName "play")
        (some 4)).2.1.application_commands (some 4) = some [⟨3, "play"⟩] := by
  have h := findMention_never_pushes ⟨true, [(some 4, [⟨"play", "play", none, "d"⟩])]⟩
      (fun _ => [⟨3, "play"⟩]) ⟨[], [7]⟩ (.byName "play") (some 4)
  exact ⟨h.2.1, (h.2.2.2 (some 4) (by decide)).2.1⟩

/-- Any resolver call whose scope entry is warm performs no fetch for that
scope (it may still fetch the global entry). -/
theorem findMention_warm_scope_no_refetch (cfg : TreeConfig)
    (f : Scope → List AppCommand) (X : BotState) (c : CmdHandle) (g : Nat)
    (cmds : List AppCommand)
    (hwarm : cacheFind? X.application_commands (some g) = some cmds) :
    (find_mention_for cfg f X (.byCommand c) (some g)).2.2.countP
      (fun e => e == Ev.fetch (some g)) = 0 := by
  have hne : (Ev.fetch (none : Scope) == Ev.fetch (some g)) = false := by simp
  rw [find_mention_for_eq]
  rw [show resolveDeclared cfg (CmdRef.byCommand c) (some g)
      (cfg.fallback_to_global || (some g).isSome) = some c from rfl]
  dsimp only [Option.isSome_some, Bool.or_true, Bool.true_and]
  rw [cacheSearch_warm f X (some g) (lookupName c) cmds hwarm]
  dsimp only
  cases hfind : cmds.find? (fun a => a.name == lookupName c) with
  | some a => simp [hfind]
  | none =>
    simp only [hfind, Option.isNone_none, Bool.or_true, Bool.true_and, if_true]
    cases hg : cacheFind? X.application_commands none with
    | some gc =>
      rw [cacheSearch_warm f X none (lookupName c) gc hg]
      cases hfind₂ : gc.find? (fun a => a.name == lookupName c) with
      | some a => simp [hfind₂]
      | none => simp [hfind₂]
    | none =>
      rw [cacheSearch_cold f X none (lookupName c) hg]
      cases hfind₂ : (f none).find? (fun a => a.name == lookupName c) with
      | some a => simp [hfind₂, List.countP_cons, hne]
      | none => simp [hfind₂, List.countP_cons, hne]

/-- C6: lazy cache population: calling `find_mention_for` with a handle and a
scope whose cache entry is absent triggers exactly one fetch for that scope,
which populates the entry with the fetched records; a second call with the
same scope, starting from the state the first call produced, triggers no
fetch for that scope. -/
theorem findMention_lazy_fetch_once (cfg : TreeConfig)
    (f : Scope → List AppCommand) (st : BotState) (c : CmdHandle) (g : Nat)
    (hcold : cacheFind? st.application_commands (some g) = none) :
    ((find_mention_for cfg f st (.byCommand c) (some g)).2.2.countP
        (fun e => e == Ev.fetch (some g)) = 1) ∧
    (cacheFind? (find_mention_for cfg f st
        (.byCommand c) (some g)).2.1.application_commands (some g) =
      some (f (some g))) ∧
    ((find_mention_for cfg f
        (find_mention_for cfg f st (.byCommand c) (some g)).2.1
        (.byCommand c) (some g)).2.2.countP
        (fun e => e == Ev.fetch (some g)) = 0) := by
  have hself : (Ev.fetch (some g) == Ev.fetch (some g)) = true := by simp
  have hne : (Ev.fetch (none : Scope) == Ev.fetch (some g)) = false := by simp
  have key : ((find_mention_for cfg f st (.byCommand c) (some g)).2.2.countP
      (fun e => e == Ev.fetch (some g)) = 1) ∧
      cacheFind? (find_mention_for cfg f st
        (.byCommand c) (some g)).2.1.application_commands (some g) =
        some (f (some g)) := by
    rw [find_mention_for_eq]
    rw [show resolveDeclared cfg (CmdRef.byCommand c) (some g)
        (cfg.fallback_to_global || (some g).isSome) = some c from rfl]
    dsimp only [Option.isSome_some, Bool.or_true, Bool.true_and]
    rw [cacheSearch_cold f st (some g) (lookupName c) hcold]
    dsimp only
    cases hfind : (f (some g)).find? (fun a => a.name == lookupName c) with
    | some a =>
      constructor
      · simp [hfind, hself]
      · simp [hfind, cacheFind?_insert_self]
    | none =>
      simp only [hfind, Option.isNone_none, Bool.or_true, Bool.true_and, if_true]
      cases hg : cacheFind? (cacheInsert st.application_commands (some g)
          (f (some g))) none with
      | some gc =>
        rw [cacheSearch_warm f _ none (lookupName c) gc hg]
        cases hfind₂ : gc.find? (fun a => a.name == lookupName c) with
        | some a =>
          constructor
          · simp [hfind₂, hself]
          · simp [hfind₂, cacheFind?_insert_self]
        | none =>
          constructor
          · simp [hfind₂, hself]
          · simp [hfind₂, cacheFind?_insert_self]
      | none =>
        rw [cacheSearch_cold f _ none (lookupName c) hg]
        cases hfind₂ : (f none).find? (fun a => a.name == lookupName c) with
        | some a =>
          constructor
          · simp [hfind₂, List.countP_cons, hself, hne]
          · simp only [hfind₂]
            rw [cacheFind?_insert_ne _ none (some g) _ (by simp),
              cacheFind?_insert_self]
        | none =>
          constructor
          · simp [hfind₂, List.countP_cons, hself, hne]
          · simp only [hfind₂]
            rw [cacheFind?_insert_ne _ none (some g) _ (by simp),
              cacheFind?_insert_self]
  exact ⟨key.1, key.2,
    findMention_warm_scope_no_refetch cfg f _ c g (f (some g)) key.2⟩

/-- Witness for C6 at a concrete cold guild cache. -/
theorem findMention_lazy_fetch_once_witness :
    ((find_mention_for ⟨true, []⟩ (fun _ => [⟨9, "play"⟩]) ⟨[], []⟩
        (.byCommand ⟨"play", "play", none, "d"⟩) (some 5)).2.2.countP
        (fun e => e == Ev.fetch (some 5)) = 1) ∧
    (cacheFind? (find_mention_for ⟨true, []⟩ (fun _ => [⟨9, "play"⟩]) ⟨[], []⟩
        (.byCommand ⟨"play", "play", none, "d"⟩)
        (some 5)).2.1.application_commands (some 5) = some [⟨9, "play"⟩]) ∧
    ((find_mention_for ⟨true, []⟩ (fun _ => [⟨9, "play"⟩])
        (find_mention_for ⟨true, []⟩ (fun _ => [⟨9, "play"⟩]) ⟨[], []⟩
          (.byCommand ⟨"play", "play", none, "d"⟩) (some 5)).2.1
        (.byCommand ⟨"play", "play", none, "d"⟩) (some 5)).2.2.countP
        (fun e => e == Ev.fetch (some 5)) = 0) :=
  findMention_lazy_fetch_once ⟨true, []⟩ (fun _ => [⟨9, "play"⟩]) ⟨[], []⟩
    ⟨"play", "play", none, "d"⟩ 5 rfl

/-- C5: subcommand resolution: a resolved child command (one with a non-null
root parent) is searched in the cached records by the root parent name, and
the returned mention combines the child full qualified name with the parent
record remote identifier, in the form "</qualified_name:id>"; a command
without a parent uses its own name and record. -/
theorem findMention_subcommand_uses_root_parent
    (cfg : TreeConfig) (f : Scope → List AppCommand) (st : BotState)
    (c : CmdHandle) (gcmds : List AppCommand) (r : AppCommand)
    (hfb : cfg.fallback_to_global = true)
    (hcache : cacheFind? st.application_commands none = some gcmds) :
    (∀ pn, c.rootParentName = some pn →
      gcmds.find? (fun a => a.name == pn) = some r →
      find_mention_for cfg f st (.byCommand c) none =
        (some (mentionString c r), st, [])) ∧
    (c.rootParentName = none →
      gcmds.find? (fun a => a.name == c.name) = some r →
      find_mention_for cfg f st (.byCommand c) none =
        (some (mentionString c r), st, [])) ∧
    mentionString c r = "</" ++ c.qualifiedName ++ ":" ++ toString r.id ++ ">" := by
  have hres : resolveDeclared cfg (CmdRef.byCommand c) none
      (cfg.fallback_to_global || (none : Scope).isSome) = some c := rfl
  refine ⟨?_, ?_, rfl⟩
  · intro pn hpn hfind
    rw [find_mention_for_eq, hres, hfb]
    dsimp only
    rw [cacheSearch_warm f st none (lookupName c) gcmds hcache]
    rw [show lookupName c = pn by simp [lookupName, hpn]]
    simp [hfind]
  · intro hpn hfind
    rw [find_mention_for_eq, hres, hfb]
    dsimp only
    rw [cacheSearch_warm f st none (lookupName c) gcmds hcache]
    rw [show lookupName c = c.name by simp [lookupName, hpn]]
    simp [hfind]

/-- Witness for C5: the subcommand "queue add" of group "queue" resolves
through the cached parent record with id 7 to "</queue add:7>". -/
theorem findMention_subcommand_uses_root_parent_witness :
    find_mention_for ⟨true, []⟩ (fun _ => []) ⟨[(none, [⟨7, "queue"⟩])], []⟩
      (.byCommand ⟨"add", "queue add", some "queue", "d"⟩) none =
      (some "</queue add:7>",
        (⟨[(none, [⟨7, "queue"⟩])], []⟩ : BotState), []) :=
  ((findMention_subcommand_uses_root_parent ⟨true, []⟩ (fun _ => [])
      ⟨[(none, [⟨7, "queue"⟩])], []⟩ ⟨"add", "queue add", some "queue", "d"⟩
      [⟨7, "queue"⟩] ⟨7, "queue"⟩ rfl rfl).1 "queue" rfl (by decide))

/-- Counterexample to C4 as stated: its clause "with fallback enabled or when
no scope is passed, the lookup falls back to the global declared set and the
global cache" fails at a no-scope call with fallback disabled: here the
command "pause" is declared globally and the warm global cache holds a
matching record with id 13, yet `find_mention_for` returns `none` instead of
the mention, because the global cache step is guarded by the code
disjunction `fallback_to_global or a scope was passed`, which is false. -/
theorem findMention_fallback_disjunction_counterexample :
    walk_commands ⟨false, [(none, [⟨"pause", "pause", none, "d"⟩])]⟩ none =
      [⟨"pause", "pause", none, "d"⟩] ∧
    cacheFind? [(none, [⟨13, "pause"⟩])] none = some [⟨13, "pause"⟩] ∧
    (find_mention_for ⟨false, [(none, [⟨"pause", "pause", none, "d"⟩])]⟩
      (fun _ => []) ⟨[(none, [⟨13, "pause"⟩])], []⟩ (.byName "pause") none).1 =
      none := by
  refine ⟨by decide, by decide, by decide⟩

/-- C4 (amended: the fallback clause reads "with fallback enabled or when a
scope is passed", matching the code disjunction): (a) a command declared in
scope A with a matching record in scope A's cache resolves to a mention
under scope A, without touching the global cache, so a scoped hit is
preferred over any global one; (b) a lookup under scope B for a command
declared only in scope A, with fallback disabled and B different from A,
returns absent; (c1) when a scope is passed (even with fallback disabled), a
scoped declared miss falls back to the global declared set and a scoped
cache miss falls back to the global cache; (c2) with no scope and fallback
enabled, the global declared set and the global cache are used. -/
theorem findMention_scoping (cfg : TreeConfig)
    (f : Scope → List AppCommand) (st : BotState) :
    (∀ s c A recs r,
      (walk_commands cfg (some A)).find? (fun x => x.qualifiedName == s) = some c →
      cacheFind? st.application_commands (some A) = some recs →
      recs.find? (fun a => a.name == lookupName c) = some r →
      find_mention_for cfg f st (.byName s) (some A) =
        (some (mentionString c r), st, [])) ∧
    (∀ s A B, cfg.fallback_to_global = false → B ≠ A →
      (∀ sc, sc ≠ some A →
        (walk_commands cfg sc).find? (fun x => x.qualifiedName == s) = none) →
      find_mention_for cfg f st (.byName s) (some B) = (none, st, [])) ∧
    (∀ s g c grecs r lrecs,
      (walk_commands cfg (some g)).find? (fun x => x.qualifiedName == s) = none →
      (walk_commands cfg none).find? (fun x => x.qualifiedName == s) = some c →
      cacheFind? st.application_commands (some g) = some lrecs →
      lrecs.find? (fun a => a.name == lookupName c) = none →
      cacheFind? st.application_commands none = some grecs →
      grecs.find? (fun a => a.name == lookupName c) = some r →
      find_mention_for cfg f st (.byName s) (some g) =
        (some (mentionString c r), st, [])) ∧
    (∀ s c grecs r, cfg.fallback_to_global = true →
      (walk_commands cfg none).find? (fun x => x.qualifiedName == s) = some c →
      cacheFind? st.application_commands none = some grecs →
      grecs.find? (fun a => a.name == lookupName c) = some r →
      find_mention_for cfg f st (.byName s) none =
        (some (mentionString c r), st, [])) := by
  refine ⟨?_, ?_, ?_, ?_⟩
  · intro s c A recs r hdecl hcache hfind
    rw [find_mention_for_eq]
    rw [show resolveDeclared cfg (CmdRef.byName s) (some A)
        (cfg.fallback_to_global || (some A : Scope).isSome) = some c by
      simp [resolveDeclared, hdecl]]
    dsimp only
    rw [cacheSearch_warm f st (some A) (lookupName c) recs hcache]
    simp [hfind]
  · intro s A B hfb hBA hdecl
    rw [find_mention_for_eq]
    rw [show resolveDeclared cfg (CmdRef.byName s) (some B)
        (cfg.fallback_to_global || (some B : Scope).isSome) = none by
      simp [resolveDeclared,
        hdecl (some B) (fun h => hBA (Option.some.inj h)),
        hdecl none (fun h => Option.noConfusion h)]]
  · intro s g c grecs r lrecs h1 h2 hlc hlf hgc hgf
    rw [find_mention_for_eq]
    rw [show resolveDeclared cfg (CmdRef.byName s) (some g)
        (cfg.fallback_to_global || (some g : Scope).isSome) = some c by
      simp [resolveDeclared, h1, h2]]
    dsimp only
    rw [cacheSearch_warm f st (some g) (lookupName c) lrecs hlc]
    simp only [hlf, Option.isNone_none, Option.isSome_some, Bool.or_true,
      Bool.true_and, if_true]
    rw [cacheSearch_warm f st none (lookupName c) grecs hgc]
    simp [hgf]
  · intro s c grecs r hfb hdecl hgc hgf
    rw [find_mention_for_eq]
    rw [show resolveDeclared cfg (CmdRef.byName s) none
        (cfg.fallback_to_global || (none : Scope).isSome) = some c by
      simp [resolveDeclared, hdecl]]
    rw [hfb]
    dsimp only
    rw [cacheSearch_warm f st none (lookupName c) grecs hgc]
    simp [hgf]

/-- Witness for C4 (amended), exercising the scoped-hit clause: "play"
declared in guild 4 with a matching record with id 3 in guild 4's cache
resolves to "</play:3>" with no state change and no fetch. -/
theorem findMention_scoping_witness :
    find_mention_for ⟨false, [(some 4, [⟨"play", "play", none, "d"⟩])]⟩
      (fun _ => []) ⟨[(some 4, [⟨3, "play"⟩])], []⟩ (.byName "play") (some 4) =
      (some "</play:3>", (⟨[(some 4, [⟨3, "play"⟩])], []⟩ : BotState), []) :=
  (findMention_scoping ⟨false, [(some 4, [⟨"play", "play", none, "d"⟩])]⟩
      (fun _ => []) ⟨[(some 4, [⟨3, "play"⟩])], []⟩).1 "play"
    ⟨"play", "play", none, "d"⟩ 4 [⟨3, "play"⟩] ⟨3, "play"⟩
    (by decide) (by decide) (by decide)

/-! Injectivity of the concrete serializer and hash oracles used to
instantiate the external collaborators of `get_hash`. -/

theorem char_toNat_injective : Function.Injective Char.toNat :=
  fun a b h => Char.ext (UInt32.ext h)

theorem natOfString_injective : Function.Injective natOfString := by
  intro a b h
  have h3 : a.data = b.data :=
    List.map_injective_iff.mpr char_toNat_injective (Encodable.encode_injective h)
  exact congrArg String.mk h3

theorem natOfPayload_injective : Function.Injective natOfPayload := by
  intro p q h
  have h2 := Encodable.encode_injective h
  simp only [Prod.mk.injEq] at h2
  cases p
  cases q
  simp only [Payload.mk.injEq]
  exact ⟨natOfString_injective h2.1, natOfString_injective h2.2⟩

theorem dumpsW_injective : Function.Injective dumpsW := by
  intro l₁ l₂ h
  have h2 : List.replicate (Encodable.encode (l₁.map natOfPayload)) 'a' =
      List.replicate (Encodable.encode (l₂.map natOfPayload)) 'a' :=
    congrArg String.data h
  have h3 : Encodable.encode (l₁.map natOfPayload) =
      Encodable.encode (l₂.map natOfPayload) := by
    have h4 := congrArg List.length h2
    simpa using h4
  exact List.map_injective_iff.mpr natOfPayload_injective
    (Encodable.encode_injective h3)

theorem hashFnW_injective : Function.Injective (fun s => hashFnW s 1) := by
  intro a b h
  simp only [hashFnW, List.cons.injEq, true_and] at h
  have h3 : a.data = b.data :=
    List.map_injective_iff.mpr char_toNat_injective h
  exact congrArg String.mk h3

/-- Sorting by qualified name is deterministic across enumeration orders:
two permutations of a declared set with no duplicate qualified names sort
to the same list. -/
theorem mergeSort_qn_eq_of_perm (l₁ l₂ : List CmdHandle)
    (hperm : List.Perm l₁ l₂)
    (hnodup : (l₁.map (fun c => c.qualifiedName)).Nodup) :
    l₁.mergeSort qnLE = l₂.mergeSort qnLE := by
  have htrans : ∀ a b c : CmdHandle, qnLE a b → qnLE b c → qnLE a c := by
    intro a b c hab hbc
    simp only [qnLE, decide_eq_true_eq] at *
    exact le_trans hab hbc
  have htotal : ∀ a b : CmdHandle, qnLE a b || qnLE b a := by
    intro a b
    simp only [qnLE, Bool.or_eq_true, decide_eq_true_eq]
    exact le_total _ _
  have hp₁ := List.mergeSort_perm l₁ qnLE
  have hp₂ := List.mergeSort_perm l₂ qnLE
  have hs₁ := List.sorted_mergeSort htrans htotal l₁
  have hs₂ := List.sorted_mergeSort htrans htotal l₂
  have hnd₁ : ((l₁.mergeSort qnLE).map (fun c => c.qualifiedName)).Nodup :=
    (hp₁.map (fun c => c.qualifiedName)).nodup_iff.mpr hnodup
  have hnd₂ : ((l₂.mergeSort qnLE).map (fun c => c.qualifiedName)).Nodup := by
    have h2 : (l₂.map (fun c => c.qualifiedName)).Nodup :=
      (hperm.map (fun c => c.qualifiedName)).nodup_iff.mp hnodup
    exact (hp₂.map (fun c => c.qualifiedName)).nodup_iff.mpr h2
  have hlt₁ : (l₁.mergeSort qnLE).Pairwise
      (fun a b => a.qualifiedName < b.qualifiedName) :=
    (hs₁.and (List.pairwise_map.mp hnd₁)).imp
      (fun {a b} h => lt_of_le_of_ne (by simpa [qnLE] using h.1) h.2)
  have hlt₂ : (l₂.mergeSort qnLE).Pairwise
      (fun a b => a.qualifiedName < b.qualifiedName) :=
    (hs₂.and (List.pairwise_map.mp hnd₂)).imp
      (fun {a b} h => lt_of_le_of_ne (by simpa [qnLE] using h.1) h.2)
  haveI : IsAntisymm CmdHandle (fun a b => a.qualifiedName < b.qualifiedName) :=
    ⟨fun a b hab hba => absurd (hab.trans hba) (lt_irrefl _)⟩
  exact List.eq_of_perm_of_sorted (hp₁.trans (hperm.trans hp₂.symm)) hlt₁ hlt₂

/-- Both translator branches of `get_hash` hash the serialization of the
sorted command payloads. -/
theorem get_hash_eq_payloadOf (hashFn : String → Nat → List Nat)
    (dumps : List Payload → String) (translator : Option (CmdHandle → String))
    (cfg : TreeConfig) :
    get_hash hashFn dumps translator cfg =
      hashFn (dumps (((walk_commands cfg none).mergeSort qnLE).map
        (payloadOf translator))) 1 := by
  cases translator <;> rfl

/-- C3: digest determinism as a two-run statement: for a fixed declared set
and fixed translation outputs `get_hash` is a pure function, and it is even
invariant under re-enumeration of the declared set (the input is sorted by
qualified name before serialization, and the external hash is applied to it
with the fixed seed 1); two runs whose declared sets differ in a single
command whose qualified name or translated text differs produce different
serializer inputs, hence different digests for any injective serializer and
seed-1-injective hash; and the digest has the external hash's output
length, 8 bytes for `xxh3_64_digest`. -/
theorem get_hash_deterministic_and_sensitive (hashFn : String → Nat → List Nat)
    (dumps : List Payload → String) (translator : Option (CmdHandle → String))
    (cfg₁ cfg₂ : TreeConfig) :
    (List.Perm (walk_commands cfg₁ none) (walk_commands cfg₂ none) →
      ((walk_commands cfg₁ none).map (fun c => c.qualifiedName)).Nodup →
      get_hash hashFn dumps translator cfg₁ =
        get_hash hashFn dumps translator cfg₂) ∧
    (∀ pre c c' post,
      walk_commands cfg₁ none = pre ++ c :: post →
      walk_commands cfg₂ none = pre ++ c' :: post →
      (c.qualifiedName ≠ c'.qualifiedName ∨
        textOf translator c ≠ textOf translator c') →
      Function.Injective dumps →
      Function.Injective (fun s => hashFn s 1) →
      get_hash hashFn dumps translator cfg₁ ≠
        get_hash hashFn dumps translator cfg₂) ∧
    ((∀ s n, (hashFn s n).length = 8) →
      (get_hash hashFn dumps translator cfg₁).length = 8) := by
  refine ⟨?_, ?_, ?_⟩
  · intro hperm hnodup
    rw [get_hash_eq_payloadOf, get_hash_eq_payloadOf,
      mergeSort_qn_eq_of_perm _ _ hperm hnodup]
  · intro pre c c' post h₁ h₂ hdiff hdumps hhash heq
    rw [get_hash_eq_payloadOf, get_hash_eq_payloadOf] at heq
    have hXY : ((walk_commands cfg₁ none).mergeSort qnLE).map (payloadOf translator) =
        ((walk_commands cfg₂ none).mergeSort qnLE).map (payloadOf translator) :=
      hdumps (hhash heq)
    have hm : List.Perm
        ((walk_commands cfg₁ none).map (payloadOf translator))
        ((walk_commands cfg₂ none).map (payloadOf translator)) := by
      have p₁ := (List.mergeSort_perm (walk_commands cfg₁ none) qnLE).map
        (payloadOf translator)
      have p₂ := (List.mergeSort_perm (walk_commands cfg₂ none) qnLE).map
        (payloadOf translator)
      exact p₁.symm.trans (hXY ▸ p₂)
    have hpc : payloadOf translator c ≠ payloadOf translator c' := by
      intro hcc
      cases hdiff with
      | inl h => exact h (congrArg Payload.name hcc)
      | inr h => exact h (congrArg Payload.text hcc)
    have hcount := hm.count_eq (payloadOf translator c)
    rw [h₁, h₂] at hcount
    simp only [List.map_append, List.map_cons, List.count_append,
      List.count_cons_self] at hcount
    rw [List.count_cons_of_ne hpc] at hcount
    omega
  · intro hlen
    rw [get_hash_eq_payloadOf]
    exact hlen _ _

/-- Witness for C3, exercising the sensitivity clause with concrete
injective serializer and hash oracles: changing one command's translated
text changes the digest. -/
theorem get_hash_deterministic_and_sensitive_witness :
    get_hash hashFnW dumpsW (some (fun c => c.description))
        ⟨true, [(none, [⟨"play", "play", none, "da"⟩])]⟩ ≠
      get_hash hashFnW dumpsW (some (fun c => c.description))
        ⟨true, [(none, [⟨"play", "play", none, "db"⟩])]⟩ :=
  (get_hash_deterministic_and_sensitive hashFnW dumpsW
      (some (fun c => c.description))
      ⟨true, [(none, [⟨"play", "play", none, "da"⟩])]⟩
      ⟨true, [(none, [⟨"play", "play", none, "db"⟩])]⟩).2.1
    [] ⟨"play", "play", none, "da"⟩ ⟨"play", "play", none, "db"⟩ []
    rfl rfl (Or.inr (by decide)) dumpsW_injective hashFnW_injective

end MusicBotModel
